import Mathlib

/-!
# Verification of the record-recording-splitter alignment core

Shallow embedding of the pure core of `record_splitter.py`,
`fetch_album_data.py` and their composition in `main`:

* silence intervals are `(start_ms, end_ms)` pairs of integers;
* `find_side_break` picks the longest silence (Python `max` with key:
  first maximal element wins);
* `align_tracks_to_silences` aligns expected tracks to silences, with a
  back-to-back fallback when the silence list is empty and a best-fit
  mode otherwise (Python `min` with key: first minimal element wins);
* the `main` pipeline partitions tracks by slice index and silences by
  position relative to the side break, aligns both sides, and
  concatenates the results;
* `format_duration` / `duration_to_ms` convert between milliseconds and
  the "M:SS" text form, embedded here over `List Char`.

All millisecond values are embedded as `Int` (Python integers).
-/

namespace RecordSplitter

/-- A detected silence interval `(start_ms, end_ms)`, as produced by
`detect_silence_intervals` (a pair of integer milliseconds). -/
abbrev SilenceInterval := Int × Int

/-- An expected track from the album metadata: title plus expected
duration in milliseconds (`track['title']`, `track['duration_ms']`). -/
structure ExpectedTrack where
  title : String
  duration_ms : Int
deriving Repr, DecidableEq

/-- An aligned track as produced by `align_tracks_to_silences`:
`{"title": ..., "start_ms": ..., "end_ms": ...}`. -/
structure AlignedTrack where
  title : String
  start_ms : Int
  end_ms : Int
deriving Repr, DecidableEq

/-- Python's `min(xs, key=key)` scan: keep the current best, replace it
only when a later element has a strictly smaller key, so on ties the
earliest element wins.  `best` is the current best, the list is the
remaining elements. -/
def pyMinBy (key : SilenceInterval → Int) (best : SilenceInterval) :
    List SilenceInterval → SilenceInterval
  | [] => best
  | s :: rest => if key s < key best then pyMinBy key s rest else pyMinBy key best rest

/-- Python's `max(xs, key=key)` scan: keep the current best, replace it
only when a later element has a strictly larger key, so on ties the
earliest element wins. -/
def pyMaxBy (key : SilenceInterval → Int) (best : SilenceInterval) :
    List SilenceInterval → SilenceInterval
  | [] => best
  | s :: rest => if key s > key best then pyMaxBy key s rest else pyMaxBy key best rest

/-- `find_side_break(silence_intervals)` from `record_splitter.py`:
`None` on an empty list, otherwise
`max(silence_intervals, key=lambda i: i[1] - i[0])`. -/
def find_side_break : List SilenceInterval → Option SilenceInterval
  | [] => none
  | s :: rest => some (pyMaxBy (fun i => i.2 - i.1) s rest)

/-- The no-silence fallback loop of `align_tracks_to_silences`: lay the
tracks out back-to-back from `last_split_point`. -/
def alignNoSilences (last_split_point : Int) :
    List ExpectedTrack → List AlignedTrack
  | [] => []
  | track :: rest =>
    let start_ms := last_split_point
    let end_ms := start_ms + track.duration_ms
    ⟨track.title, start_ms, end_ms⟩ :: alignNoSilences end_ms rest

/-- The expression `min(silences, key=lambda s: abs(s[0] - target))`
from the best-fit loop, where `target = start_offset + cumulative_duration`
and the silence list is the nonempty `s0 :: rest`. -/
def chosenSilence (s0 : SilenceInterval) (rest : List SilenceInterval)
    (target : Int) : SilenceInterval :=
  pyMinBy (fun s => |s.1 - target|) s0 rest

/-- The best-fit loop of `align_tracks_to_silences` over a nonempty
silence list `s0 :: rest`, threading the mutable `cumulative_duration`
and `last_split_point` explicitly. -/
def alignBestFit (s0 : SilenceInterval) (rest : List SilenceInterval)
    (start_offset : Int) (cumulative_duration last_split_point : Int) :
    List ExpectedTrack → List AlignedTrack
  | [] => []
  | track :: tracks =>
    let cum := cumulative_duration + track.duration_ms
    let closest_silence := chosenSilence s0 rest (start_offset + cum)
    let split_point := closest_silence.1
    ⟨track.title, last_split_point, split_point⟩ ::
      alignBestFit s0 rest start_offset cum closest_silence.2 tracks

/-- `align_tracks_to_silences(tracks, silences, start_offset)` from
`record_splitter.py`: the fallback when `silences` is empty, the
best-fit loop otherwise, with `cumulative_duration = 0` and
`last_split_point = start_offset` initially. -/
def align_tracks_to_silences (tracks : List ExpectedTrack)
    (silences : List SilenceInterval) (start_offset : Int) :
    List AlignedTrack :=
  match silences with
  | [] => alignNoSilences start_offset tracks
  | s0 :: rest => alignBestFit s0 rest start_offset 0 start_offset tracks

/-- Running sum of the expected durations of the first `n` tracks
(the value of `cumulative_duration` after `n` loop iterations). -/
def cumDur (tracks : List ExpectedTrack) (n : Nat) : Int :=
  ((tracks.take n).map ExpectedTrack.duration_ms).sum

/-- The `i`-th aligned track, with a dummy default for out-of-range
indices (never used: the output has the same length as `tracks`). -/
def alignedAt (tracks : List ExpectedTrack) (silences : List SilenceInterval)
    (start_offset : Int) (i : Nat) : AlignedTrack :=
  (align_tracks_to_silences tracks silences start_offset).getD i ⟨"", 0, 0⟩

/-! ## The pipeline driver (`main` in `record_splitter.py`) -/

/-- The effective start index of a Python slice `l[n:]` / end index of
`l[:n]` for an integer `n`: negative indices count from the end,
clamped at `0`; `List.take`/`List.drop` clamp the upper end. -/
def pySliceIndex (n : Int) (len : Nat) : Nat :=
  if n < 0 then ((len : Int) + n).toNat else n.toNat

/-- `side_a_tracks = album_info['tracks'][:side_a_track_count]`. -/
def side_a_tracks_of (tracks : List ExpectedTrack) (side_a_count : Int) :
    List ExpectedTrack :=
  tracks.take (pySliceIndex side_a_count tracks.length)

/-- `side_b_tracks = album_info['tracks'][side_a_track_count:]`. -/
def side_b_tracks_of (tracks : List ExpectedTrack) (side_a_count : Int) :
    List ExpectedTrack :=
  tracks.drop (pySliceIndex side_a_count tracks.length)

/-- `side_a_silences = [s for s in silence_intervals if s[1] < side_break[0]]`. -/
def side_a_silences_of (silences : List SilenceInterval)
    (side_break : SilenceInterval) : List SilenceInterval :=
  silences.filter (fun s => s.2 < side_break.1)

/-- `side_b_silences = [s for s in silence_intervals if s[0] > side_break[1]]`. -/
def side_b_silences_of (silences : List SilenceInterval)
    (side_break : SilenceInterval) : List SilenceInterval :=
  silences.filter (fun s => s.1 > side_break.2)

/-- The alignment phase of `main` in `record_splitter.py`: classify the
side break (aborting with `none` when there is none, before any aligned
track is produced or any cut is delegated), partition tracks and
silences into the two sides, align side A from offset `0` and side B
from the side break's `end_ms`, and concatenate side A's aligned tracks
with side B's. -/
def runAlignmentPipeline (tracks : List ExpectedTrack)
    (silences : List SilenceInterval) (side_a_count : Int) :
    Option (List AlignedTrack) :=
  match find_side_break silences with
  | none => none
  | some side_break =>
    some (align_tracks_to_silences (side_a_tracks_of tracks side_a_count)
            (side_a_silences_of silences side_break) 0 ++
          align_tracks_to_silences (side_b_tracks_of tracks side_a_count)
            (side_b_silences_of silences side_break) side_break.2)

/-! ## Duration formatting (`format_duration`) and parsing
(`duration_to_ms`)

Strings are embedded as `List Char`.  `natDigitsAux`/`natRepr` model
how Python's f-string renders a nonnegative integer in decimal;
`pyInt` models `int(...)` on the digit strings that occur here (on
empty or non-digit input `int` raises `ValueError`, modeled as
`none`). -/

/-- Decimal digit characters of `n`, most significant first, empty for
`n = 0`.  The first argument is fuel for structural recursion; it is
always used with fuel `≥ n`, which suffices since `n` shrinks by a
factor of ten each step. -/
def natDigitsAux : Nat → Nat → List Char
  | _, 0 => []
  | 0, _ + 1 => []
  | fuel + 1, n + 1 =>
    natDigitsAux fuel ((n + 1) / 10) ++ [Nat.digitChar ((n + 1) % 10)]

/-- Decimal rendering of a nonnegative integer as Python's `str`:
`"0"` for zero, no leading zeros otherwise. -/
def natRepr (n : Nat) : List Char :=
  if n = 0 then ['0'] else natDigitsAux n n

/-- Python's format spec `{x:02}`: left-pad the rendering with `'0'` to
width 2. -/
def padZero2 (cs : List Char) : List Char :=
  if cs.length < 2 then List.replicate (2 - cs.length) '0' ++ cs else cs

/-- `format_duration(milliseconds)` from `fetch_album_data.py`:
`"0:00"` when `milliseconds` is falsy (zero here), otherwise
`f"{minutes}:{seconds:02}"` where `seconds = milliseconds // 1000`,
`minutes = seconds // 60`, `seconds %= 60`. -/
def format_duration (milliseconds : Nat) : List Char :=
  if milliseconds = 0 then ['0', ':', '0', '0']
  else
    natRepr (milliseconds / 1000 / 60) ++
      ':' :: padZero2 (natRepr (milliseconds / 1000 % 60))

/-- Python's `str.split(':')`. -/
def splitOnColon : List Char → List (List Char)
  | [] => [[]]
  | c :: cs =>
    if c = ':' then [] :: splitOnColon cs
    else
      match splitOnColon cs with
      | [] => [[c]]
      | p :: ps => (c :: p) :: ps

/-- Python's `int(...)` restricted to the strings arising here: `some`
of the decimal value on a nonempty all-digit string, `none` (the
`ValueError`) on an empty or non-digit string. -/
def pyInt : List Char → Option Nat
  | [] => none
  | c :: cs =>
    if (c :: cs).all Char.isDigit then
      some ((c :: cs).foldl (fun n ch => n * 10 + (ch.toNat - '0'.toNat)) 0)
    else none

/-- `duration_to_ms(duration_str)` from `record_splitter.py`: split on
`':'`, read `parts[0]` as minutes and `parts[1]` as seconds (a missing
part raises `IndexError`, modeled as `none`), and return
`(minutes * 60 + seconds) * 1000`. -/
def duration_to_ms (duration_str : List Char) : Option Nat :=
  match splitOnColon duration_str with
  | p0 :: p1 :: _ =>
    match pyInt p0, pyInt p1 with
    | some minutes, some seconds => some ((minutes * 60 + seconds) * 1000)
    | _, _ => none
  | _ => none

/-! ## Basic lemmas on the aligner -/

theorem alignNoSilences_length (last : Int) (tracks : List ExpectedTrack) :
    (alignNoSilences last tracks).length = tracks.length := by
  induction tracks generalizing last with
  | nil => rfl
  | cons t ts ih => simp [alignNoSilences, ih]

theorem alignBestFit_length (s0 : SilenceInterval) (rest : List SilenceInterval)
    (off cum last : Int) (tracks : List ExpectedTrack) :
    (alignBestFit s0 rest off cum last tracks).length = tracks.length := by
  induction tracks generalizing cum last with
  | nil => rfl
  | cons t ts ih => simp [alignBestFit, ih]

theorem align_length (tracks : List ExpectedTrack)
    (silences : List SilenceInterval) (off : Int) :
    (align_tracks_to_silences tracks silences off).length = tracks.length := by
  cases silences with
  | nil => exact alignNoSilences_length off tracks
  | cons s0 rest => exact alignBestFit_length s0 rest off 0 off tracks

theorem alignNoSilences_titles (last : Int) (tracks : List ExpectedTrack) :
    (alignNoSilences last tracks).map AlignedTrack.title
      = tracks.map ExpectedTrack.title := by
  induction tracks generalizing last with
  | nil => rfl
  | cons t ts ih => simp [alignNoSilences, ih]

theorem alignBestFit_titles (s0 : SilenceInterval) (rest : List SilenceInterval)
    (off cum last : Int) (tracks : List ExpectedTrack) :
    (alignBestFit s0 rest off cum last tracks).map AlignedTrack.title
      = tracks.map ExpectedTrack.title := by
  induction tracks generalizing cum last with
  | nil => rfl
  | cons t ts ih => simp [alignBestFit, ih]

/-! ## Characterizing the Python `min`/`max` scans -/

theorem pyMinBy_mem (key : SilenceInterval → Int) (best : SilenceInterval)
    (l : List SilenceInterval) : pyMinBy key best l ∈ best :: l := by
  induction l generalizing best with
  | nil => simp [pyMinBy]
  | cons y ys ih =>
    rw [pyMinBy]
    split
    · have := ih y
      simp only [List.mem_cons] at this ⊢
      tauto
    · have := ih best
      simp only [List.mem_cons] at this ⊢
      tauto

theorem pyMinBy_le (key : SilenceInterval → Int) (best : SilenceInterval)
    (l : List SilenceInterval) :
    ∀ x ∈ best :: l, key (pyMinBy key best l) ≤ key x := by
  induction l generalizing best with
  | nil =>
    intro x hx
    rw [pyMinBy]
    rcases List.mem_cons.mp hx with h1 | h1
    · rw [h1]
    · simp at h1
  | cons y ys ih =>
    intro x hx
    rw [pyMinBy]
    rcases List.mem_cons.mp hx with h1 | h1
    · rw [h1]
      split
      · rename_i h
        exact le_of_lt (lt_of_le_of_lt (ih y y (List.mem_cons_self _ _)) h)
      · exact ih best best (List.mem_cons_self _ _)
    · split
      · exact ih y x h1
      · rename_i h
        rcases List.mem_cons.mp h1 with h2 | h2
        · rw [h2]
          exact le_trans (ih best best (List.mem_cons_self _ _)) (le_of_not_lt h)
        · exact ih best x (List.mem_cons_of_mem _ h2)

theorem pyMinBy_first (key : SilenceInterval → Int) (best : SilenceInterval)
    (l : List SilenceInterval) :
    ∃ j : Fin (best :: l).length, (best :: l).get j = pyMinBy key best l ∧
      ∀ k : Fin (best :: l).length, k < j →
        key (pyMinBy key best l) < key ((best :: l).get k) := by
  induction l generalizing best with
  | nil =>
    refine ⟨⟨0, by simp⟩, rfl, ?_⟩
    intro k hk
    have hk0 : k.val < 0 := hk
    omega
  | cons y ys ih =>
    by_cases h : key y < key best
    · obtain ⟨j, hj, hlt⟩ := ih y
      rw [pyMinBy, if_pos h]
      refine ⟨j.succ, by simpa using hj, ?_⟩
      intro k hk
      cases k using Fin.cases with
      | zero =>
        have h1 : key (pyMinBy key y ys) ≤ key y :=
          pyMinBy_le key y ys y (List.mem_cons_self _ _)
        simpa using lt_of_le_of_lt h1 h
      | succ k' =>
        have hk' : k' < j := by rwa [Fin.succ_lt_succ_iff] at hk
        simpa using hlt k' hk'
    · obtain ⟨j, hj, hlt⟩ := ih best
      rw [pyMinBy, if_neg h]
      cases j using Fin.cases with
      | zero =>
        refine ⟨⟨0, by simp⟩, by simpa using hj, ?_⟩
        intro k hk
        have hk0 : k.val < 0 := hk
        omega
      | succ i =>
        have hmb : key (pyMinBy key best ys) < key best := by
          simpa using hlt ⟨0, by simp⟩ (Nat.succ_pos i.val)
        refine ⟨i.succ.succ, by simpa using hj, ?_⟩
        intro k hk
        cases k using Fin.cases with
        | zero => simpa using hmb
        | succ k' =>
          cases k' using Fin.cases with
          | zero =>
            have hby : key best ≤ key y := le_of_not_lt h
            simpa using lt_of_lt_of_le hmb hby
          | succ k'' =>
            have hk'' : k''.succ < i.succ := by
              rwa [Fin.succ_lt_succ_iff] at hk
            simpa using hlt k''.succ hk''

theorem pyMaxBy_eq_pyMinBy (key : SilenceInterval → Int) (best : SilenceInterval)
    (l : List SilenceInterval) :
    pyMaxBy key best l = pyMinBy (fun s => -(key s)) best l := by
  induction l generalizing best with
  | nil => rfl
  | cons y ys ih =>
    by_cases h : key best < key y
    · rw [pyMaxBy, if_pos h, pyMinBy, if_pos (by simpa using neg_lt_neg h), ih]
    · rw [pyMaxBy, if_neg h, pyMinBy, if_neg (by simpa using h), ih]

theorem pyMaxBy_mem (key : SilenceInterval → Int) (best : SilenceInterval)
    (l : List SilenceInterval) : pyMaxBy key best l ∈ best :: l := by
  rw [pyMaxBy_eq_pyMinBy]
  exact pyMinBy_mem _ best l

theorem pyMaxBy_ge (key : SilenceInterval → Int) (best : SilenceInterval)
    (l : List SilenceInterval) :
    ∀ x ∈ best :: l, key x ≤ key (pyMaxBy key best l) := by
  intro x hx
  have := pyMinBy_le (fun s => -(key s)) best l x hx
  rw [pyMaxBy_eq_pyMinBy]
  simpa using this

theorem pyMaxBy_first (key : SilenceInterval → Int) (best : SilenceInterval)
    (l : List SilenceInterval) :
    ∃ j : Fin (best :: l).length, (best :: l).get j = pyMaxBy key best l ∧
      ∀ k : Fin (best :: l).length, k < j →
        key ((best :: l).get k) < key (pyMaxBy key best l) := by
  obtain ⟨j, hj, hlt⟩ := pyMinBy_first (fun s => -(key s)) best l
  rw [pyMaxBy_eq_pyMinBy]
  refine ⟨j, hj, ?_⟩
  intro k hk
  have := hlt k hk
  simpa using this

/-- **C4**: on a nonempty silence list, `find_side_break` returns an
interval of maximal length `end_ms - start_ms`, and among intervals of
maximal length it returns the first in input order (every
earlier-indexed interval is strictly shorter). -/
theorem find_side_break_longest (s0 : SilenceInterval)
    (rest : List SilenceInterval) :
    ∃ c, find_side_break (s0 :: rest) = some c ∧ c ∈ s0 :: rest ∧
      (∀ s ∈ s0 :: rest, s.2 - s.1 ≤ c.2 - c.1) ∧
      ∃ j : Fin (s0 :: rest).length, (s0 :: rest).get j = c ∧
        ∀ k : Fin (s0 :: rest).length, k < j →
          ((s0 :: rest).get k).2 - ((s0 :: rest).get k).1 < c.2 - c.1 := by
  refine ⟨pyMaxBy (fun i => i.2 - i.1) s0 rest, rfl,
    pyMaxBy_mem _ s0 rest, pyMaxBy_ge _ s0 rest, ?_⟩
  exact pyMaxBy_first (fun i => i.2 - i.1) s0 rest

/-- **C2**: the aligner returns exactly one aligned track per expected
track, in order, carrying the same titles — for every track list, every
silence list (empty included) and every start offset. -/
theorem align_preserves_count_and_titles (tracks : List ExpectedTrack)
    (silences : List SilenceInterval) (start_offset : Int) :
    (align_tracks_to_silences tracks silences start_offset).length = tracks.length ∧
    (align_tracks_to_silences tracks silences start_offset).map AlignedTrack.title
      = tracks.map ExpectedTrack.title := by
  refine ⟨align_length tracks silences start_offset, ?_⟩
  cases silences with
  | nil => exact alignNoSilences_titles start_offset tracks
  | cons s0 rest => exact alignBestFit_titles s0 rest start_offset 0 start_offset tracks

/-! ## Indexing the aligner's output -/

theorem cumDur_zero (tracks : List ExpectedTrack) : cumDur tracks 0 = 0 := by
  simp [cumDur]

theorem cumDur_cons_succ (t : ExpectedTrack) (ts : List ExpectedTrack) (n : Nat) :
    cumDur (t :: ts) (n + 1) = t.duration_ms + cumDur ts n := by
  simp [cumDur, List.take_succ_cons]

theorem cumDur_succ (tracks : List ExpectedTrack) (i : Nat) (h : i < tracks.length) :
    cumDur tracks (i + 1)
      = cumDur tracks i + (tracks.getD i ⟨"", 0⟩).duration_ms := by
  induction tracks generalizing i with
  | nil => simp at h
  | cons t ts ih =>
    cases i with
    | zero => simp [cumDur_cons_succ, cumDur_zero, cumDur]
    | succ n =>
      have hn : n < ts.length := by simpa using h
      rw [cumDur_cons_succ, ih n hn, cumDur_cons_succ, List.getD_cons_succ]
      ring

theorem alignNoSilences_getD (tracks : List ExpectedTrack) (last : Int)
    (i : Nat) (h : i < tracks.length) :
    (alignNoSilences last tracks).getD i ⟨"", 0, 0⟩ =
      ⟨(tracks.getD i ⟨"", 0⟩).title,
       last + cumDur tracks i, last + cumDur tracks (i + 1)⟩ := by
  induction tracks generalizing last i with
  | nil => simp at h
  | cons t ts ih =>
    cases i with
    | zero =>
      simp [alignNoSilences, cumDur_cons_succ, cumDur_zero, cumDur]
    | succ n =>
      have hn : n < ts.length := by simpa using h
      simp only [alignNoSilences, List.getD_cons_succ]
      rw [ih (last + t.duration_ms) n hn]
      simp only [cumDur_cons_succ]
      rw [add_assoc last t.duration_ms (cumDur ts n),
        add_assoc last t.duration_ms (cumDur ts (n + 1))]

theorem alignBestFit_getD (s0 : SilenceInterval) (rest : List SilenceInterval)
    (off : Int) (tracks : List ExpectedTrack) :
    ∀ (cum last : Int) (i : Nat), i < tracks.length →
    (alignBestFit s0 rest off cum last tracks).getD i ⟨"", 0, 0⟩ =
      ⟨(tracks.getD i ⟨"", 0⟩).title,
       if i = 0 then last else (chosenSilence s0 rest (off + cum + cumDur tracks i)).2,
       (chosenSilence s0 rest (off + cum + cumDur tracks (i + 1))).1⟩ := by
  induction tracks with
  | nil =>
    intro cum last i h
    simp at h
  | cons t ts ih =>
    intro cum last i h
    cases i with
    | zero =>
      simp only [alignBestFit, List.getD_cons_zero, eq_self_iff_true, if_true]
      rw [cumDur_cons_succ, cumDur_zero]
      have e0 : off + (cum + t.duration_ms) = off + cum + (t.duration_ms + 0) := by ring
      rw [e0]
    | succ n =>
      have hn : n < ts.length := by simpa using h
      simp only [alignBestFit, List.getD_cons_succ]
      rw [ih (cum + t.duration_ms) (chosenSilence s0 rest (off + (cum + t.duration_ms))).2 n hn]
      rw [if_neg (Nat.succ_ne_zero n)]
      simp only [cumDur_cons_succ]
      have e2 : off + (cum + t.duration_ms) + cumDur ts (n + 1)
          = off + cum + (t.duration_ms + cumDur ts (n + 1)) := by ring
      rw [e2]
      cases n with
      | zero =>
        rw [if_pos rfl, cumDur_zero]
        have e0 : off + (cum + t.duration_ms) = off + cum + (t.duration_ms + 0) := by ring
        rw [e0]
      | succ m =>
        rw [if_neg (Nat.succ_ne_zero m)]
        have e1 : off + (cum + t.duration_ms) + cumDur ts (m + 1)
            = off + cum + (t.duration_ms + cumDur ts (m + 1)) := by ring
        rw [e1]

theorem getD_eq_get_fin (tracks : List ExpectedTrack) (i : Fin tracks.length) :
    tracks.getD i.val ⟨"", 0⟩ = tracks.get i :=
  List.getD_eq_getElem tracks ⟨"", 0⟩ i.isLt

/-- **C3**: with an empty silence list the aligner lays the tracks out
back-to-back: as many aligned tracks as expected tracks, the first one
starting at `start_offset`, each one ending at its start plus its
expected duration, and each subsequent one starting at the previous
one's end. -/
theorem align_empty_silences_back_to_back (tracks : List ExpectedTrack)
    (start_offset : Int) :
    (align_tracks_to_silences tracks [] start_offset).length = tracks.length ∧
    (∀ i : Fin tracks.length,
      (alignedAt tracks [] start_offset i.val).end_ms
        = (alignedAt tracks [] start_offset i.val).start_ms
            + (tracks.get i).duration_ms) ∧
    (∀ i : Fin tracks.length,
      (alignedAt tracks [] start_offset i.val).start_ms
        = if i.val = 0 then start_offset
          else (alignedAt tracks [] start_offset (i.val - 1)).end_ms) := by
  have key : ∀ i : Nat, i < tracks.length →
      alignedAt tracks [] start_offset i =
        ⟨(tracks.getD i ⟨"", 0⟩).title,
         start_offset + cumDur tracks i, start_offset + cumDur tracks (i + 1)⟩ := by
    intro i h
    unfold alignedAt align_tracks_to_silences
    exact alignNoSilences_getD tracks start_offset i h
  refine ⟨align_length tracks [] start_offset, ?_, ?_⟩
  · intro i
    rw [key i.val i.isLt]
    dsimp only
    rw [cumDur_succ tracks i.val i.isLt, getD_eq_get_fin]
    ring
  · intro i
    rw [key i.val i.isLt]
    dsimp only
    rcases Nat.eq_zero_or_pos i.val with h0 | hpos
    · rw [if_pos h0, h0, cumDur_zero, add_zero]
    · rw [if_neg (by omega), key (i.val - 1) (by omega)]
      dsimp only
      have h1 : i.val - 1 + 1 = i.val := by omega
      rw [h1]

/-- **C1**: in best-fit mode (nonempty silence list `s0 :: rest`) the
aligner emits one aligned track per expected track; the `i`-th one ends
at the start of `chosenSilence` for target
`start_offset + cumDur (i+1)` (the cumulative expected duration
including track `i`), starts at `start_offset` for the first track and
at the end of the silence chosen for the previous track otherwise; and
the chosen silence is the one whose `start_ms` minimizes the absolute
difference to the target, the earliest-indexed one on ties. -/
theorem align_best_fit_spec (tracks : List ExpectedTrack) (s0 : SilenceInterval)
    (rest : List SilenceInterval) (start_offset : Int) (i : Fin tracks.length) :
    (align_tracks_to_silences tracks (s0 :: rest) start_offset).length = tracks.length ∧
    (alignedAt tracks (s0 :: rest) start_offset i.val).end_ms
      = (chosenSilence s0 rest (start_offset + cumDur tracks (i.val + 1))).1 ∧
    (alignedAt tracks (s0 :: rest) start_offset i.val).start_ms
      = (if i.val = 0 then start_offset
         else (chosenSilence s0 rest (start_offset + cumDur tracks i.val)).2) ∧
    chosenSilence s0 rest (start_offset + cumDur tracks (i.val + 1)) ∈ s0 :: rest ∧
    (∀ s ∈ s0 :: rest,
      |(chosenSilence s0 rest (start_offset + cumDur tracks (i.val + 1))).1
          - (start_offset + cumDur tracks (i.val + 1))|
        ≤ |s.1 - (start_offset + cumDur tracks (i.val + 1))|) ∧
    ∃ j : Fin (s0 :: rest).length,
      (s0 :: rest).get j
          = chosenSilence s0 rest (start_offset + cumDur tracks (i.val + 1)) ∧
      ∀ k : Fin (s0 :: rest).length, k < j →
        |(chosenSilence s0 rest (start_offset + cumDur tracks (i.val + 1))).1
            - (start_offset + cumDur tracks (i.val + 1))|
          < |((s0 :: rest).get k).1 - (start_offset + cumDur tracks (i.val + 1))| := by
  have key : alignedAt tracks (s0 :: rest) start_offset i.val =
      ⟨(tracks.getD i.val ⟨"", 0⟩).title,
       if i.val = 0 then start_offset
       else (chosenSilence s0 rest (start_offset + cumDur tracks i.val)).2,
       (chosenSilence s0 rest (start_offset + cumDur tracks (i.val + 1))).1⟩ := by
    unfold alignedAt align_tracks_to_silences
    have := alignBestFit_getD s0 rest start_offset tracks 0 start_offset i.val i.isLt
    simpa [zero_add] using this
  refine ⟨align_length tracks (s0 :: rest) start_offset, ?_, ?_, ?_, ?_, ?_⟩
  · rw [key]
  · rw [key]
  · exact pyMinBy_mem _ s0 rest
  · intro s hs
    exact pyMinBy_le (fun s => |s.1 - (start_offset + cumDur tracks (i.val + 1))|)
      s0 rest s hs
  · exact pyMinBy_first
      (fun s => |s.1 - (start_offset + cumDur tracks (i.val + 1))|) s0 rest

/-- **C5**: `silences_a` holds exactly the input silences ending
strictly before the side break starts, `silences_b` exactly those
starting strictly after it ends, and the side break itself (a valid
interval, `start_ms < end_ms`) lands in neither. -/
theorem side_partition_silences (silences : List SilenceInterval)
    (side_break : SilenceInterval) (hbrk : side_break.1 < side_break.2) :
    (∀ s, s ∈ side_a_silences_of silences side_break ↔
        s ∈ silences ∧ s.2 < side_break.1) ∧
    (∀ s, s ∈ side_b_silences_of silences side_break ↔
        s ∈ silences ∧ s.1 > side_break.2) ∧
    side_break ∉ side_a_silences_of silences side_break ∧
    side_break ∉ side_b_silences_of silences side_break := by
  refine ⟨?_, ?_, ?_, ?_⟩
  · intro s
    simp [side_a_silences_of, List.mem_filter]
  · intro s
    simp [side_b_silences_of, List.mem_filter]
  · intro hmem
    simp only [side_a_silences_of, List.mem_filter, decide_eq_true_eq] at hmem
    omega
  · intro hmem
    simp only [side_b_silences_of, List.mem_filter, decide_eq_true_eq] at hmem
    omega

/-- Witness for C5 at the spec's example: side break `(60000, 61000)`,
silences `[(10000,10500),(60000,61000),(90000,90600)]`. -/
theorem side_partition_silences_witness :
    ((60000 : Int) < 61000) ∧
    ((∀ s, s ∈ side_a_silences_of
          [((10000 : Int), (10500 : Int)), (60000, 61000), (90000, 90600)]
          (60000, 61000) ↔
        s ∈ [((10000 : Int), (10500 : Int)), (60000, 61000), (90000, 90600)]
          ∧ s.2 < 60000) ∧
     (∀ s, s ∈ side_b_silences_of
          [((10000 : Int), (10500 : Int)), (60000, 61000), (90000, 90600)]
          (60000, 61000) ↔
        s ∈ [((10000 : Int), (10500 : Int)), (60000, 61000), (90000, 90600)]
          ∧ s.1 > 61000) ∧
     ((60000 : Int), (61000 : Int)) ∉ side_a_silences_of
        [((10000 : Int), (10500 : Int)), (60000, 61000), (90000, 90600)]
        (60000, 61000) ∧
     ((60000 : Int), (61000 : Int)) ∉ side_b_silences_of
        [((10000 : Int), (10500 : Int)), (60000, 61000), (90000, 90600)]
        (60000, 61000)) :=
  ⟨by decide,
   side_partition_silences
     [((10000 : Int), (10500 : Int)), (60000, 61000), (90000, 90600)]
     (60000, 61000) (by decide)⟩

/-- Counterexample to C6 as stated: one track of positive duration
`1000`, one valid silence `(0, 100)`, start offset `0`.  Best-fit picks
`(0, 100)`, so the single aligned track is `("A", 0, 0)` and
`start_ms < end_ms` fails. -/
theorem aligned_track_invariant_counterexample :
    align_tracks_to_silences [⟨"A", 1000⟩] [((0 : Int), (100 : Int))] 0
        = [⟨"A", 0, 0⟩] ∧
    ¬ (∀ a ∈ align_tracks_to_silences [⟨"A", 1000⟩] [((0 : Int), (100 : Int))] 0,
        0 ≤ a.start_ms ∧ a.start_ms < a.end_ms) := by
  constructor
  · rfl
  · decide

/-- **C6** (amended): in the no-silence fallback mode, with a
non-negative start offset and positive track durations, every aligned
track satisfies `0 ≤ start_ms < end_ms`; in best-fit mode the bound can
fail (see the counterexample). -/
theorem align_no_silences_invariant (tracks : List ExpectedTrack)
    (start_offset : Int) (hoff : 0 ≤ start_offset)
    (hdur : ∀ t ∈ tracks, 0 < t.duration_ms) :
    ∀ a ∈ align_tracks_to_silences tracks [] start_offset,
      0 ≤ a.start_ms ∧ a.start_ms < a.end_ms := by
  induction tracks generalizing start_offset with
  | nil =>
    intro a ha
    simp [align_tracks_to_silences, alignNoSilences] at ha
  | cons t ts ih =>
    intro a ha
    simp only [align_tracks_to_silences, alignNoSilences, List.mem_cons] at ha
    rcases ha with rfl | ha
    · have ht : 0 < t.duration_ms := hdur t (List.mem_cons_self _ _)
      constructor
      · exact hoff
      · simpa using ht
    · have hoff' : 0 ≤ start_offset + t.duration_ms :=
        add_nonneg hoff (le_of_lt (hdur t (List.mem_cons_self _ _)))
      have hdur' : ∀ x ∈ ts, 0 < x.duration_ms :=
        fun x hx => hdur x (List.mem_cons_of_mem _ hx)
      exact ih (start_offset + t.duration_ms) hoff' hdur' a ha

/-- Witness for the amended C6 at the spec's no-silence example. -/
theorem align_no_silences_invariant_witness :
    ((0 : Int) ≤ 0) ∧
    (∀ t ∈ [ExpectedTrack.mk "A" 5000, ExpectedTrack.mk "B" 3000],
        0 < t.duration_ms) ∧
    (∀ a ∈ align_tracks_to_silences
        [ExpectedTrack.mk "A" 5000, ExpectedTrack.mk "B" 3000] [] 0,
      0 ≤ a.start_ms ∧ a.start_ms < a.end_ms) :=
  ⟨by decide, by decide,
   align_no_silences_invariant
     [ExpectedTrack.mk "A" 5000, ExpectedTrack.mk "B" 3000] 0
     (by decide) (by decide)⟩

/-- **C7**: classifying an empty silence list yields `None`, that is
the only way classification yields `None`, and in that case the
pipeline aborts with no aligned tracks (hence nothing is handed to the
segment cutter). -/
theorem classify_none_aborts_pipeline :
    find_side_break ([] : List SilenceInterval) = none ∧
    (∀ (tracks : List ExpectedTrack) (side_a_count : Int),
        runAlignmentPipeline tracks [] side_a_count = none) ∧
    (∀ silences : List SilenceInterval,
        find_side_break silences = none ↔ silences = []) := by
  refine ⟨rfl, fun _ _ => rfl, ?_⟩
  intro silences
  cases silences with
  | nil => simp [find_side_break]
  | cons s rest => simp [find_side_break]

/-- **C8**: whenever a side break is classified, the pipeline's output
is exactly side A's tracks aligned from offset `0`, followed by side
B's tracks aligned from the side break's `end_ms`, concatenated in that
order. -/
theorem pipeline_aligns_and_concatenates (tracks : List ExpectedTrack)
    (silences : List SilenceInterval) (side_a_count : Int)
    (side_break : SilenceInterval)
    (h : find_side_break silences = some side_break) :
    runAlignmentPipeline tracks silences side_a_count =
      some (align_tracks_to_silences (side_a_tracks_of tracks side_a_count)
              (side_a_silences_of silences side_break) 0 ++
            align_tracks_to_silences (side_b_tracks_of tracks side_a_count)
              (side_b_silences_of silences side_break) side_break.2) := by
  unfold runAlignmentPipeline
  rw [h]

/-- Witness for C8 on concrete data with side break `(60000, 61000)`. -/
theorem pipeline_aligns_and_concatenates_witness :
    find_side_break [((10000 : Int), (10500 : Int)), (60000, 61000), (90000, 90600)]
        = some (60000, 61000) ∧
    runAlignmentPipeline [⟨"A", 45000⟩, ⟨"B", 40000⟩]
        [((10000 : Int), (10500 : Int)), (60000, 61000), (90000, 90600)] 1 =
      some (align_tracks_to_silences
              (side_a_tracks_of [⟨"A", 45000⟩, ⟨"B", 40000⟩] 1)
              (side_a_silences_of
                [((10000 : Int), (10500 : Int)), (60000, 61000), (90000, 90600)]
                (60000, 61000)) 0 ++
            align_tracks_to_silences
              (side_b_tracks_of [⟨"A", 45000⟩, ⟨"B", 40000⟩] 1)
              (side_b_silences_of
                [((10000 : Int), (10500 : Int)), (60000, 61000), (90000, 90600)]
                (60000, 61000)) 61000) :=
  ⟨by decide,
   pipeline_aligns_and_concatenates [⟨"A", 45000⟩, ⟨"B", 40000⟩]
     [((10000 : Int), (10500 : Int)), (60000, 61000), (90000, 90600)] 1
     (60000, 61000) (by decide)⟩

/-- **C10**: the slice-based track partition is lossless and
duplication-free: side A's sublist followed by side B's sublist is the
original track list, for every integer `side_a_count` (negative or
larger than the list length included). -/
theorem side_track_partition_exact (tracks : List ExpectedTrack)
    (side_a_count : Int) :
    side_a_tracks_of tracks side_a_count ++ side_b_tracks_of tracks side_a_count
      = tracks := by
  unfold side_a_tracks_of side_b_tracks_of
  exact List.take_append_drop _ tracks

/-! ### Round-trip lemmas -/

theorem natDigitsAux_zero (f : Nat) : natDigitsAux f 0 = [] := by
  cases f <;> rfl

theorem digitChar_isDigit (d : Nat) (h : d < 10) :
    (Nat.digitChar d).isDigit = true := by
  interval_cases d <;> decide

theorem digitChar_val (d : Nat) (h : d < 10) :
    (Nat.digitChar d).toNat - '0'.toNat = d := by
  interval_cases d <;> decide

theorem natDigitsAux_all_isDigit (f : Nat) :
    ∀ n, n ≤ f → ∀ c ∈ natDigitsAux f n, c.isDigit = true := by
  induction f with
  | zero =>
    intro n hn c hc
    have : n = 0 := by omega
    subst this
    rw [natDigitsAux_zero] at hc
    simp at hc
  | succ f ih =>
    intro n hn c hc
    cases n with
    | zero =>
      rw [natDigitsAux_zero] at hc
      simp at hc
    | succ m =>
      simp only [natDigitsAux, List.mem_append, List.mem_singleton] at hc
      rcases hc with hc | rfl
      · have hdiv : (m + 1) / 10 ≤ f := by
          have := Nat.div_lt_self (Nat.succ_pos m) (by norm_num : (1 : Nat) < 10)
          omega
        exact ih ((m + 1) / 10) hdiv c hc
      · exact digitChar_isDigit _ (Nat.mod_lt _ (by norm_num))

theorem foldl_natDigitsAux (f : Nat) :
    ∀ n a, n ≤ f →
      (natDigitsAux f n).foldl (fun m c => m * 10 + (c.toNat - '0'.toNat)) a
        = a * 10 ^ (natDigitsAux f n).length + n := by
  induction f with
  | zero =>
    intro n a hn
    have : n = 0 := by omega
    subst this
    rw [natDigitsAux_zero]
    simp
  | succ f ih =>
    intro n a hn
    cases n with
    | zero =>
      rw [natDigitsAux_zero]
      simp
    | succ m =>
      have hdiv : (m + 1) / 10 ≤ f := by
        have := Nat.div_lt_self (Nat.succ_pos m) (by norm_num : (1 : Nat) < 10)
        omega
      simp only [natDigitsAux, List.foldl_append, List.foldl_cons, List.foldl_nil,
        List.length_append, List.length_cons, List.length_nil]
      rw [ih ((m + 1) / 10) a hdiv]
      rw [digitChar_val _ (Nat.mod_lt _ (by norm_num))]
      have key : ∀ (L q r aa tt : Nat), q * 10 + r = tt →
          (aa * 10 ^ L + q) * 10 + r = aa * 10 ^ (L + (0 + 1)) + tt := by
        intro L q r aa tt hT
        rw [← hT]
        ring
      exact key _ _ _ _ _ (by omega)

theorem natRepr_all_isDigit (n : Nat) : ∀ c ∈ natRepr n, c.isDigit = true := by
  unfold natRepr
  split
  · intro c hc
    simp only [List.mem_singleton] at hc
    subst hc
    decide
  · exact natDigitsAux_all_isDigit n n le_rfl

theorem natRepr_ne_nil (n : Nat) : natRepr n ≠ [] := by
  unfold natRepr
  split
  · simp
  · rename_i h
    obtain ⟨m, rfl⟩ : ∃ m, n = m + 1 := ⟨n - 1, by omega⟩
    simp [natDigitsAux]

theorem foldl_natRepr (n : Nat) :
    (natRepr n).foldl (fun m c => m * 10 + (c.toNat - '0'.toNat)) 0 = n := by
  unfold natRepr
  split
  · rename_i h
    subst h
    decide
  · rw [foldl_natDigitsAux n n 0 le_rfl]
    simp

theorem pyInt_of_digits (cs : List Char) (hne : cs ≠ [])
    (hall : ∀ c ∈ cs, c.isDigit = true) :
    pyInt cs = some (cs.foldl (fun n c => n * 10 + (c.toNat - '0'.toNat)) 0) := by
  cases cs with
  | nil => exact absurd rfl hne
  | cons c cs' =>
    rw [pyInt, if_pos (List.all_eq_true.mpr hall)]

theorem pyInt_natRepr (n : Nat) : pyInt (natRepr n) = some n := by
  rw [pyInt_of_digits (natRepr n) (natRepr_ne_nil n) (natRepr_all_isDigit n),
    foldl_natRepr]

theorem padZero2_eq (cs : List Char) :
    padZero2 cs = List.replicate (2 - cs.length) '0' ++ cs := by
  unfold padZero2
  split
  · rfl
  · rename_i h
    rw [Nat.sub_eq_zero_of_le (le_of_not_lt h)]
    simp

theorem foldl_replicate_zero (k : Nat) (cs : List Char) :
    (List.replicate k '0' ++ cs).foldl
        (fun n c => n * 10 + (c.toNat - '0'.toNat)) 0
      = cs.foldl (fun n c => n * 10 + (c.toNat - '0'.toNat)) 0 := by
  induction k with
  | zero => simp
  | succ j ih =>
    rw [List.replicate_succ, List.cons_append, List.foldl_cons]
    simpa using ih

theorem pyInt_padZero2_natRepr (n : Nat) :
    pyInt (padZero2 (natRepr n)) = some n := by
  rw [padZero2_eq]
  rw [pyInt_of_digits]
  · rw [foldl_replicate_zero, foldl_natRepr]
  · intro h
    rcases List.append_eq_nil.mp h with ⟨_, h2⟩
    exact natRepr_ne_nil n h2
  · intro c hc
    rcases List.mem_append.mp hc with hc | hc
    · have := List.eq_of_mem_replicate hc
      subst this
      decide
    · exact natRepr_all_isDigit n c hc

theorem colon_not_mem_natRepr (n : Nat) : ':' ∉ natRepr n := by
  intro h
  exact absurd (natRepr_all_isDigit n ':' h) (by decide)

theorem colon_not_mem_padZero2_natRepr (n : Nat) :
    ':' ∉ padZero2 (natRepr n) := by
  rw [padZero2_eq]
  intro h
  rcases List.mem_append.mp h with h | h
  · have := List.eq_of_mem_replicate h
    simp at this
  · exact colon_not_mem_natRepr n h

theorem splitOnColon_no_colon (cs : List Char) (h : ':' ∉ cs) :
    splitOnColon cs = [cs] := by
  induction cs with
  | nil => rfl
  | cons c cs' ih =>
    have hc : ¬ c = ':' := fun e => h (e ▸ List.mem_cons_self c cs')
    have hcs : ':' ∉ cs' := fun e => h (List.mem_cons_of_mem c e)
    rw [splitOnColon, if_neg hc, ih hcs]

theorem splitOnColon_append (xs ys : List Char) (h : ':' ∉ xs) :
    splitOnColon (xs ++ ':' :: ys) = xs :: splitOnColon ys := by
  induction xs with
  | nil =>
    rw [List.nil_append, splitOnColon, if_pos rfl]
  | cons c cs ih =>
    have hc : ¬ c = ':' := fun e => h (e ▸ List.mem_cons_self c cs)
    have hcs : ':' ∉ cs := fun e => h (List.mem_cons_of_mem c e)
    rw [List.cons_append, splitOnColon, if_neg hc, ih hcs]

/-- Counterexample to C9 as stated: at `ms = 1999` the round trip
yields `1000`, but the nearest whole second is `2000` — `2000` is
strictly closer to `1999` than the reproduced value is. -/
theorem duration_round_trip_counterexample :
    duration_to_ms (format_duration 1999) = some 1000 ∧
    ((2000 : Int) - 1999).natAbs < ((1000 : Int) - 1999).natAbs := by
  constructor
  · decide
  · decide

/-- **C9** (amended): for every `ms ≥ 0` the round trip
`duration_to_ms (format_duration ms)` succeeds and reproduces `ms`
truncated (floored) to a whole second, `(ms / 1000) * 1000` — so it is
within strictly less than `1000` ms below `ms`, but does not round to
the nearest second. -/
theorem duration_round_trip (ms : Nat) :
    duration_to_ms (format_duration ms) = some (ms / 1000 * 1000) ∧
    ms / 1000 * 1000 ≤ ms ∧ ms < ms / 1000 * 1000 + 1000 := by
  refine ⟨?_, by omega, by omega⟩
  by_cases h : ms = 0
  · subst h
    decide
  · rw [format_duration, if_neg h]
    rw [duration_to_ms]
    rw [splitOnColon_append _ _ (colon_not_mem_natRepr _)]
    rw [splitOnColon_no_colon _ (colon_not_mem_padZero2_natRepr _)]
    simp only [pyInt_natRepr, pyInt_padZero2_natRepr]
    rw [show ms / 1000 / 60 * 60 + ms / 1000 % 60 = ms / 1000 from by omega]

example : align_tracks_to_silences [⟨"A", 4000⟩]
    [((3900 : Int), (4200 : Int)), (9000, 9500)] 0 = [⟨"A", 0, 3900⟩] := by decide

example : align_tracks_to_silences [⟨"A", 5000⟩, ⟨"B", 3000⟩] [] 0
    = [⟨"A", 0, 5000⟩, ⟨"B", 5000, 8000⟩] := by decide

example : align_tracks_to_silences [⟨"A", 5000⟩] [] 1000
    = [⟨"A", 1000, 6000⟩] := by decide

example : find_side_break [((10000 : Int), (10500 : Int)), (60000, 61000), (90000, 90600)]
    = some (60000, 61000) := by decide

end RecordSplitter
